import Mathlib

/-!
# Verification of the Q47 null/sparse decomposition scripts

Shallow embedding of the three Python source files:

* `src/count_effective_moduli.py` — prime sieve and the constrained
  multiplicative sieve counting "effective moduli" (integers all of whose
  prime factors are ≡ 1 mod 47);
* `src/scripts/verify_local_roots.py` — brute-force root counts of
  Q(n) = n^47 - (n-1)^47 modulo p, theoretical classification, and the
  mod-47 residue check;
* `src/scripts/verify_double_sparsity.py` — closed-form exponent formulas.

Python lists of booleans are modelled as `List Bool`; a Python indexed
assignment `l[i] = v` is modelled by `pySet`, which returns `none` exactly
when CPython would raise `IndexError`.  A Python `for m in range(a, b, s)`
loop is modelled as a structural fold over `pyRange a b s`, the exact list
of values produced by `range(a, b, s)` for `s > 0`.  Python integers are
`Int` (with `%` = `Int.emod`, which agrees with Python `%` for positive
moduli); `pow(a, k, p)` is modelled by its value `a ^ k % p`.
`int(n**0.5)` is modelled exactly as `Nat.sqrt n`.  The two exponent
formulas are modelled over `ℚ`, following the specification's description
of them as pure rational functions.
-/

set_option maxRecDepth 40000

namespace Q47

/-- The list of values of Python `range(a, b, s)` for step `s > 0`. -/
def pyRange (a b s : ℕ) : List ℕ :=
  List.range' a ((b - a + (s - 1)) / s) s

/-- Python indexed assignment `l[i] = v` on a list of booleans:
`none` exactly when the index is out of range (CPython `IndexError`). -/
def pySet (l : List Bool) (i : ℕ) (v : Bool) : Option (List Bool) :=
  if i < l.length then some (l.set i v) else none

/-- The value of Python `int(n**0.5)` for a natural number `n`: the
integer square root (written so that it evaluates by kernel reduction;
it equals `Nat.sqrt`, proved below). -/
def intSqrt (n : ℕ) : ℕ :=
  ((List.range (n + 1)).filter (fun k => decide (k * k ≤ n))).length - 1

/-- The body of the outer sieve loop of `sieve_primes` (both scripts
define the identical function): if `is_prime[i]`, mark every
`j ∈ range(i*i, n+1, i)` as composite. -/
def sieveStep (n : ℕ) (l : List Bool) (i : ℕ) : List Bool :=
  if l.getD i false then
    (pyRange (i * i) (n + 1) i).foldl (fun e j => e.set j false) l
  else l

/-- The `is_prime` array after the marking loops of `sieve_primes`:
`for i in range(2, int(n**0.5) + 1): ...`. -/
def sieveFlags (n : ℕ) (l : List Bool) : List Bool :=
  (pyRange 2 (intSqrt n + 1) 1).foldl (sieveStep n) l

/-- `sieve_primes(n)` from `count_effective_moduli.py` (an identical copy
appears in `verify_local_roots.py`).  Returns `none` exactly when the
Python code raises `IndexError`, which happens iff `n < 1`
(`is_prime = [True] * (n+1)` is then too short for
`is_prime[0] = is_prime[1] = False`). -/
def sieve_primes (n : ℤ) : Option (List ℕ) :=
  (pySet (List.replicate (n + 1).toNat true) 0 false).bind fun l1 =>
    (pySet l1 1 false).bind fun l2 =>
      some ((pyRange 2 (n.toNat + 1) 1).filter
        (fun i => (sieveFlags n.toNat l2).getD i false))

/-- The body of the marking loop of `count_effective_moduli`: if `p` is
not an effective prime (`(p - 1) % 47 != 0`), unmark every
`m ∈ range(p, D+1, p)`. -/
def effStep (D : ℕ) (e : List Bool) (p : ℕ) : List Bool :=
  if (p - 1) % 47 ≠ 0 then
    (pyRange p (D + 1) p).foldl (fun e' m => e'.set m false) e
  else e

/-- `count_effective_moduli(D)` from `count_effective_moduli.py`.
`none` exactly when the Python code raises `IndexError` (iff `D < 1`,
via `is_eff[0]` for `D < 0` and via `sieve_primes(0)` for `D = 0`). -/
def count_effective_moduli (D : ℤ) : Option ℤ :=
  (pySet (List.replicate (D + 1).toNat true) 0 false).bind fun e1 =>
    (sieve_primes D).bind fun primes =>
      some ((primes.foldl (effStep D.toNat) e1).countP id : ℕ)

/-- `omega_brute(p)` from `verify_local_roots.py`: the number of
`n ∈ range(p)` with `(pow(n, 47, p) - pow((n - 1) % p, 47, p)) % p == 0`. -/
def omega_brute (p : ℤ) : ℤ :=
  ((List.range p.toNat).filter (fun n : ℕ =>
    decide ((((n : ℤ) ^ 47 % p) - (((n : ℤ) - 1) % p) ^ 47 % p) % p = 0))).length

/-- `omega_theory(p)` from `verify_local_roots.py`. -/
def omega_theory (p : ℤ) : ℤ :=
  if p = 47 then 0
  else if (p - 1) % 47 = 0 then 46
  else 0

/-- `classify(p)` from `verify_local_roots.py`. -/
def classify (p : ℤ) : String :=
  if p = 47 then "ramified"
  else if (p - 1) % 47 = 0 then "splitting"
  else "inert"

/-- `verify_mod47()` from `verify_local_roots.py`: returns `True` iff
`(pow(n, 47, 47) - pow((n - 1) % 47, 47, 47)) % 47 == 1` for every
`n ∈ range(47)`. -/
def verify_mod47 : Bool :=
  (List.range 47).all (fun n : ℕ =>
    decide ((((n : ℤ) ^ 47 % 47) - (((n : ℤ) - 1) % 47) ^ 47 % 47) % 47 = 1))

/-- `global_exponent(B)` from `verify_double_sparsity.py`:
`(46 * B - 45) / 92`. -/
def global_exponent (B : ℚ) : ℚ := (46 * B - 45) / 92

/-- `restricted_exponent(B')` from `verify_double_sparsity.py`:
`(23 * B' - 45) / 46`. -/
def restricted_exponent (Bp : ℚ) : ℚ := (23 * Bp - 45) / 46

/-- Specification-side predicate: `q` is an effective modulus, i.e. every
prime factor of `q` is ≡ 1 (mod 47). -/
def EffectiveModulus (q : ℕ) : Prop :=
  ∀ p : ℕ, p.Prime → p ∣ q → p % 47 = 1

instance : DecidablePred EffectiveModulus := fun q =>
  decidable_of_iff
    (0 < q ∧ ∀ p < q + 1, (2 ≤ p ∧ ∀ m < p, m ∣ p → m = 1) → p ∣ q → p % 47 = 1)
    (by
      constructor
      · rintro ⟨hq, h⟩ p hp hpq
        exact h p (Nat.lt_succ_of_le (Nat.le_of_dvd hq hpq))
          (Nat.prime_def_lt.mp hp) hpq
      · intro h
        have hq : 0 < q := by
          rcases Nat.eq_zero_or_pos q with rfl | hq
          · have := h 2 Nat.prime_two (dvd_zero 2)
            omega
          · exact hq
        exact ⟨hq, fun p _ hp hpq => h p (Nat.prime_def_lt.mpr hp) hpq⟩)

/-- The filtered range below `m` of squares bounded by `n` is an initial
segment of length `min m (Nat.sqrt n + 1)`. -/
theorem filter_sq_le_range (n m : ℕ) :
    (List.range m).filter (fun k => decide (k * k ≤ n)) =
      List.range (min m (Nat.sqrt n + 1)) := by
  induction m with
  | zero => simp
  | succ m ih =>
    rw [List.range_succ, List.filter_append, ih]
    by_cases h : m * m ≤ n
    · have hm : m ≤ Nat.sqrt n := Nat.le_sqrt.mpr h
      have h1 : min m (Nat.sqrt n + 1) = m := by omega
      have h2 : min (m + 1) (Nat.sqrt n + 1) = m + 1 := by omega
      simp [h1, h2, h, List.range_succ]
    · have hm : Nat.sqrt n < m := Nat.sqrt_lt.mpr (by omega)
      have h1 : min m (Nat.sqrt n + 1) = Nat.sqrt n + 1 := by omega
      have h2 : min (m + 1) (Nat.sqrt n + 1) = Nat.sqrt n + 1 := by omega
      simp [h1, h2, h]

theorem intSqrt_eq_sqrt (n : ℕ) : intSqrt n = Nat.sqrt n := by
  have hs : Nat.sqrt n ≤ n := Nat.sqrt_le_self n
  rw [intSqrt, filter_sq_le_range, List.length_range]
  omega

/-! ### List-level lemmas about the sieve primitives -/

theorem getD_set_false (l : List Bool) (m k : ℕ) :
    (l.set m false).getD k false = (l.getD k false && !(decide (k = m))) := by
  by_cases hkm : k = m
  · subst hkm
    by_cases hk : k < l.length
    · simp [List.getD_eq_getElem?_getD, List.getElem?_set_self hk]
    · have h1 : l[k]? = none := List.getElem?_eq_none (by omega)
      have h2 : (l.set k false)[k]? = none :=
        List.getElem?_eq_none (by simp; omega)
      simp [List.getD_eq_getElem?_getD, h1, h2]
  · simp [List.getD_eq_getElem?_getD, List.getElem?_set_ne (Ne.symm hkm), hkm]

theorem foldl_set_length (xs : List ℕ) (l : List Bool) :
    (xs.foldl (fun e m => e.set m false) l).length = l.length := by
  induction xs generalizing l with
  | nil => rfl
  | cons x xs ih => rw [List.foldl_cons, ih, List.length_set]

theorem foldl_set_getD (xs : List ℕ) (l : List Bool) (k : ℕ) :
    (xs.foldl (fun e m => e.set m false) l).getD k false
      = (l.getD k false && !(decide (k ∈ xs))) := by
  induction xs generalizing l with
  | nil => simp
  | cons x xs ih =>
    rw [List.foldl_cons, ih, getD_set_false]
    by_cases hk : k = x <;> simp [hk, List.mem_cons]

theorem mem_pyRange {a b s k : ℕ} (hs : 0 < s) :
    k ∈ pyRange a b s ↔ a ≤ k ∧ k < b ∧ (k - a) % s = 0 := by
  rw [pyRange, List.mem_range']
  constructor
  · rintro ⟨i, hi, rfl⟩
    have h1 : (b - a + (s - 1)) / s * s ≤ b - a + (s - 1) :=
      Nat.div_mul_le_self _ s
    have h2 : (i + 1) * s ≤ (b - a + (s - 1)) / s * s :=
      Nat.mul_le_mul_right s hi
    have h3 : s * i % s = 0 := Nat.mul_mod_right s i
    have h4 : (i + 1) * s = s * i + s := by ring
    refine ⟨Nat.le_add_right _ _, by omega, by simp⟩
  · rintro ⟨h1, h2, h3⟩
    refine ⟨(k - a) / s, ?_, ?_⟩
    · have h4 : s * ((k - a) / s) = k - a :=
        Nat.mul_div_cancel' (Nat.dvd_of_mod_eq_zero h3)
      have h5 : ((k - a) / s + 1) * s = s * ((k - a) / s) + s := by ring
      rw [Nat.lt_iff_add_one_le, Nat.le_div_iff_mul_le hs]
      omega
    · have h4 : s * ((k - a) / s) = k - a :=
        Nat.mul_div_cancel' (Nat.dvd_of_mod_eq_zero h3)
      omega

theorem getD_replicate_true (n k : ℕ) :
    (List.replicate n true).getD k false = decide (k < n) := by
  by_cases h : k < n <;>
    simp [List.getD_eq_getElem?_getD, List.getElem?_replicate, h]

theorem countP_id_eq (l : List Bool) :
    l.countP id =
      ((List.range l.length).filter (fun k => l.getD k false)).length := by
  induction l with
  | nil => rfl
  | cons b t ih =>
    rw [List.countP_cons, List.length_cons, List.range_succ_eq_map,
      List.filter_cons, List.filter_map]
    have hcomp : ((fun k => (b :: t).getD k false) ∘ Nat.succ)
        = fun k => t.getD k false := by
      funext k; rfl
    rw [hcomp]
    by_cases hb : b <;> simp [hb, ih]

/-! ### Correctness of the sieve of Eratosthenes -/

/-- Loop invariant for the outer sieve loop: after processing the loop
indices `2, …, i - 1`, a slot `k ≤ n` is still marked iff `k ≥ 2` and no
prime `q < i` with `q * q ≤ k` divides `k`. -/
def SieveInv (n i : ℕ) (l : List Bool) : Prop :=
  l.length = n + 1 ∧ ∀ k, k ≤ n →
    (l.getD k false = true ↔
      2 ≤ k ∧ ∀ q : ℕ, q.Prime → q < i → q * q ≤ k → ¬ q ∣ k)

theorem sieveStep_inv {n i : ℕ} (hi : 2 ≤ i) {l : List Bool}
    (h : SieveInv n i l) : SieveInv n (i + 1) (sieveStep n l i) := by
  obtain ⟨hlen, hch⟩ := h
  rw [sieveStep]
  by_cases hfl : l.getD i false
  · rw [if_pos hfl]
    have hin : i ≤ n := by
      by_contra hc
      have : l[i]? = none := List.getElem?_eq_none (by omega)
      simp [List.getD_eq_getElem?_getD, this] at hfl
    have hiprime : i.Prime := by
      by_contra hnp
      have hm := Nat.minFac_prime (show i ≠ 1 by omega)
      have hdvd := Nat.minFac_dvd i
      have hsq : i.minFac * i.minFac ≤ i := by
        have := Nat.minFac_sq_le_self (show 0 < i by omega) hnp
        simpa [Nat.pow_two] using this
      have hne : i.minFac ≠ i := fun he => hnp (he ▸ hm)
      have hlt : i.minFac < i :=
        Nat.lt_of_le_of_ne (Nat.le_of_dvd (by omega) hdvd) hne
      exact ((hch i hin).mp hfl).2 i.minFac hm hlt hsq hdvd
    refine ⟨by rw [foldl_set_length, hlen], fun k hk => ?_⟩
    rw [foldl_set_getD, Bool.and_eq_true, Bool.not_eq_true',
      decide_eq_false_iff_not, mem_pyRange (by omega), hch k hk]
    have hmod : i * i ≤ k → ((k - i * i) % i = 0 ↔ i ∣ k) := by
      intro hik
      constructor
      · intro hmod0
        have h1 : i ∣ k - i * i := Nat.dvd_of_mod_eq_zero hmod0
        have h2 : i ∣ i * i := Dvd.intro i rfl
        have := Nat.dvd_add h1 h2
        rwa [Nat.sub_add_cancel hik] at this
      · intro hdk
        exact Nat.mod_eq_zero_of_dvd (Nat.dvd_sub' hdk ⟨i, rfl⟩)
    constructor
    · rintro ⟨⟨hk2, hq⟩, hnm⟩
      refine ⟨hk2, fun q hqp hqi hqqk hqdk => ?_⟩
      rcases Nat.lt_succ_iff_lt_or_eq.mp hqi with hqi' | rfl
      · exact hq q hqp hqi' hqqk hqdk
      · exact hnm ⟨hqqk, by omega, (hmod hqqk).mpr hqdk⟩
    · rintro ⟨hk2, hq⟩
      refine ⟨⟨hk2, fun q hqp hqi hqqk => hq q hqp (by omega) hqqk⟩, ?_⟩
      rintro ⟨h1, h2, h3⟩
      exact hq i hiprime (by omega) h1 ((hmod h1).mp h3)
  · rw [if_neg hfl]
    have hvac : ∀ k, k ≤ n → ¬ (i.Prime ∧ i * i ≤ k ∧ i ∣ k) := by
      by_cases hin : i ≤ n
      · have hbad := (hch i hin).not.mp hfl
        push_neg at hbad
        obtain ⟨q, hqp, hqi, hqq, hqd⟩ := hbad hi
        rintro k _ ⟨hip, _, _⟩
        rcases (Nat.Prime.eq_one_or_self_of_dvd hip q hqd) with h1 | h1
        · exact absurd h1 (Nat.Prime.ne_one hqp)
        · omega
      · rintro k hk ⟨_, hik, _⟩
        have : i ≤ i * i := Nat.le_mul_of_pos_left i (by omega)
        omega
    refine ⟨hlen, fun k hk => ?_⟩
    rw [hch k hk]
    constructor
    · rintro ⟨hk2, hq⟩
      refine ⟨hk2, fun q hqp hqi hqqk hqdk => ?_⟩
      rcases Nat.lt_succ_iff_lt_or_eq.mp hqi with hqi' | rfl
      · exact hq q hqp hqi' hqqk hqdk
      · exact hvac k hk ⟨hqp, hqqk, hqdk⟩
    · rintro ⟨hk2, hq⟩
      exact ⟨hk2, fun q hqp hqi hqqk => hq q hqp (by omega) hqqk⟩

theorem foldl_sieveStep_inv (n : ℕ) :
    ∀ (c i : ℕ) (l : List Bool), 2 ≤ i → SieveInv n i l →
      SieveInv n (i + c) ((List.range' i c 1).foldl (sieveStep n) l) := by
  intro c
  induction c with
  | zero => intro i l _ h; simpa using h
  | succ c ih =>
    intro i l hi h
    rw [List.range'_succ]
    have h2 := ih (i + 1) (sieveStep n l i) (by omega) (sieveStep_inv hi h)
    rw [List.foldl_cons]
    have harith : i + (c + 1) = (i + 1) + c := by omega
    rw [harith]
    exact h2

/-- The initial flag array of `sieve_primes` (all true, slots 0 and 1
cleared) satisfies the invariant at `i = 2`. -/
theorem sieveInv_init (n : ℕ) :
    SieveInv n 2 (((List.replicate (n + 1) true).set 0 false).set 1 false) := by
  refine ⟨by simp, fun k hk => ?_⟩
  rw [getD_set_false, getD_set_false, getD_replicate_true]
  constructor
  · intro h
    simp only [Bool.and_eq_true, Bool.not_eq_true', decide_eq_false_iff_not,
      decide_eq_true_eq] at h
    exact ⟨by omega, fun q hq hq2 _ _ => absurd hq2 (by have := hq.two_le; omega)⟩
  · rintro ⟨hk2, -⟩
    simp only [Bool.and_eq_true, Bool.not_eq_true', decide_eq_false_iff_not,
      decide_eq_true_eq]
    omega

/-- After the outer loop of `sieve_primes`, slot `k ≤ n` is marked iff
`k` is prime. -/
theorem sieveFlags_getD {n : ℕ} (hn : 1 ≤ n) {k : ℕ} (hk : k ≤ n) :
    ((sieveFlags n (((List.replicate (n + 1) true).set 0 false).set 1 false)).getD
      k false = true) ↔ k.Prime := by
  have hs1 : 1 ≤ Nat.sqrt n := Nat.le_sqrt.mpr (by omega)
  have hrange : pyRange 2 (intSqrt n + 1) 1 =
      List.range' 2 (Nat.sqrt n - 1) 1 := by
    rw [pyRange, intSqrt_eq_sqrt]
    congr 1
    omega
  have hinv := foldl_sieveStep_inv n (Nat.sqrt n - 1) 2
    (((List.replicate (n + 1) true).set 0 false).set 1 false)
    (by omega) (sieveInv_init n)
  rw [sieveFlags, hrange]
  have harith : 2 + (Nat.sqrt n - 1) = Nat.sqrt n + 1 := by omega
  rw [harith] at hinv
  rw [hinv.2 k hk]
  constructor
  · rintro ⟨hk2, hq⟩
    by_contra hnp
    have hmin := Nat.minFac_prime (show k ≠ 1 by omega)
    have hmind := Nat.minFac_dvd k
    have hminsq : k.minFac * k.minFac ≤ k := by
      have := Nat.minFac_sq_le_self (show 0 < k by omega) hnp
      simpa [Nat.pow_two] using this
    have hminlt : k.minFac < Nat.sqrt n + 1 := by
      have : k.minFac ≤ Nat.sqrt n := Nat.le_sqrt.mpr (le_trans hminsq hk)
      omega
    exact hq k.minFac hmin hminlt hminsq hmind
  · intro hp
    refine ⟨hp.two_le, fun q hq _ hqq hqd => ?_⟩
    rcases (Nat.Prime.eq_one_or_self_of_dvd hp q hqd) with rfl | rfl
    · exact absurd rfl hq.ne_one
    · have h2 := hp.two_le
      have : 2 * q ≤ q * q := Nat.mul_le_mul_right q h2
      omega

/-- For `N ≥ 1` the sieve succeeds and returns exactly the ordered list
of primes in `[2, N]`. -/
theorem sieve_primes_core {N : ℤ} (hN : 1 ≤ N) :
    ∃ l : List ℕ, sieve_primes N = some l ∧ l.Pairwise (· < ·) ∧
      ∀ p : ℕ, p ∈ l ↔ p.Prime ∧ p ≤ N.toNat := by
  have htn : (N + 1).toNat = N.toNat + 1 := by omega
  have htn1 : 1 ≤ N.toNat := by omega
  rw [sieve_primes, htn]
  have h1 : pySet (List.replicate (N.toNat + 1) true) 0 false
      = some ((List.replicate (N.toNat + 1) true).set 0 false) := by
    rw [pySet, if_pos]
    simp
  have h2 : pySet ((List.replicate (N.toNat + 1) true).set 0 false) 1 false
      = some (((List.replicate (N.toNat + 1) true).set 0 false).set 1 false) := by
    rw [pySet, if_pos]
    simp
    omega
  rw [h1, Option.some_bind, h2, Option.some_bind]
  refine ⟨_, rfl, ?_, ?_⟩
  · exact List.Pairwise.filter _ (List.pairwise_lt_range' 2 _ 1)
  · intro p
    rw [List.mem_filter]
    have hrange2 : pyRange 2 (N.toNat + 1) 1 = List.range' 2 (N.toNat - 1) 1 := by
      rw [pyRange]
      congr 1
      omega
    rw [hrange2]
    constructor
    · rintro ⟨hmem, hflag⟩
      rw [List.mem_range'_1] at hmem
      have hple : p ≤ N.toNat := by omega
      exact ⟨(sieveFlags_getD htn1 hple).mp hflag, hple⟩
    · rintro ⟨hp, hple⟩
      have h2 := hp.two_le
      refine ⟨List.mem_range'_1.mpr ⟨by omega, by omega⟩, ?_⟩
      exact (sieveFlags_getD htn1 hple).mpr hp

/-! ### Correctness of the constrained multiplicative sieve -/

theorem mem_pyRange_dvd {p D k : ℕ} (hp : 0 < p) :
    k ∈ pyRange p (D + 1) p ↔ p ∣ k ∧ p ≤ k ∧ k ≤ D := by
  rw [mem_pyRange hp]
  constructor
  · rintro ⟨h1, h2, h3⟩
    have hd : p ∣ k - p := Nat.dvd_of_mod_eq_zero h3
    have hdk : p ∣ k := by
      have := Nat.dvd_add hd (dvd_refl p)
      rwa [Nat.sub_add_cancel h1] at this
    exact ⟨hdk, h1, by omega⟩
  · rintro ⟨h1, h2, h3⟩
    exact ⟨h2, by omega, Nat.mod_eq_zero_of_dvd (Nat.dvd_sub' h1 (dvd_refl p))⟩

theorem effStep_length (D : ℕ) (e : List Bool) (p : ℕ) :
    (effStep D e p).length = e.length := by
  rw [effStep]
  by_cases h : (p - 1) % 47 ≠ 0
  · rw [if_pos h, foldl_set_length]
  · rw [if_neg h]

theorem foldl_effStep_length (D : ℕ) (ps : List ℕ) (e : List Bool) :
    (ps.foldl (effStep D) e).length = e.length := by
  induction ps generalizing e with
  | nil => rfl
  | cons p ps ih => rw [List.foldl_cons, ih, effStep_length]

theorem effStep_getD {D : ℕ} (e : List Bool) {p : ℕ} (hp : 2 ≤ p) (k : ℕ) :
    ((effStep D e p).getD k false = true ↔
      e.getD k false = true ∧
        ((p - 1) % 47 ≠ 0 → ¬ (p ∣ k ∧ p ≤ k ∧ k ≤ D))) := by
  rw [effStep]
  by_cases h : (p - 1) % 47 ≠ 0
  · rw [if_pos h, foldl_set_getD, Bool.and_eq_true, Bool.not_eq_true',
      decide_eq_false_iff_not, mem_pyRange_dvd (show 0 < p by omega)]
    tauto
  · rw [if_neg h]
    tauto

theorem foldl_effStep_getD {D : ℕ} (ps : List ℕ) (e : List Bool) (k : ℕ)
    (hps : ∀ p ∈ ps, 2 ≤ p) :
    ((ps.foldl (effStep D) e).getD k false = true ↔
      e.getD k false = true ∧
        ∀ p ∈ ps, (p - 1) % 47 ≠ 0 → ¬ (p ∣ k ∧ p ≤ k ∧ k ≤ D)) := by
  induction ps generalizing e with
  | nil => simp
  | cons p ps ih =>
    rw [List.foldl_cons, ih _ (fun q hq => hps q (List.mem_cons_of_mem _ hq)),
      effStep_getD e (hps p (List.mem_cons_self _ _)) k]
    simp only [List.mem_cons]
    constructor
    · rintro ⟨⟨he, h1⟩, h2⟩
      refine ⟨he, fun q hq => ?_⟩
      rcases hq with rfl | hq
      · exact h1
      · exact h2 q hq
    · rintro ⟨he, h⟩
      exact ⟨⟨he, h p (Or.inl rfl)⟩, fun q hq => h q (Or.inr hq)⟩

theorem init_eff_getD (D k : ℕ) :
    (((List.replicate (D + 1) true).set 0 false).getD k false = true ↔
      1 ≤ k ∧ k ≤ D) := by
  rw [getD_set_false, getD_replicate_true]
  simp only [Bool.and_eq_true, Bool.not_eq_true', decide_eq_false_iff_not,
    decide_eq_true_eq]
  omega

/-- An integer `k ∈ [1, D]` escapes every non-effective prime's marking
pass iff all of its prime factors are ≡ 1 (mod 47). -/
theorem effective_iff_unmarked {Dn k : ℕ} (hk1 : 1 ≤ k) (hkD : k ≤ Dn)
    {primes : List ℕ} (hmem : ∀ p : ℕ, p ∈ primes ↔ p.Prime ∧ p ≤ Dn) :
    ((∀ p ∈ primes, (p - 1) % 47 ≠ 0 → ¬ (p ∣ k ∧ p ≤ k ∧ k ≤ Dn)) ↔
      EffectiveModulus k) := by
  constructor
  · intro h p hp hpk
    have hple : p ≤ k := Nat.le_of_dvd (by omega) hpk
    have hpmem : p ∈ primes := (hmem p).mpr ⟨hp, by omega⟩
    by_contra hmod
    have h2 := hp.two_le
    have hcond : (p - 1) % 47 ≠ 0 := by omega
    exact h p hpmem hcond ⟨hpk, hple, hkD⟩
  · intro heff p hpmem hcond hbad
    have hp := ((hmem p).mp hpmem).1
    have h2 := hp.two_le
    have := heff p hp hbad.1
    omega

/-- Core correctness of `count_effective_moduli`: for `D ≥ 1` it returns
the number of `q ∈ [1, D]` satisfying `EffectiveModulus`. -/
theorem count_effective_moduli_eq {D : ℤ} (hD : 1 ≤ D) :
    count_effective_moduli D =
      some (((List.range' 1 D.toNat).filter
        (fun q => decide (EffectiveModulus q))).length : ℕ) := by
  have htn : (D + 1).toNat = D.toNat + 1 := by omega
  obtain ⟨primes, hsp, hsort, hmem⟩ := sieve_primes_core hD
  have hps : ∀ p ∈ primes, 2 ≤ p := fun p hp => ((hmem p).mp hp).1.two_le
  rw [count_effective_moduli, htn]
  have h1 : pySet (List.replicate (D.toNat + 1) true) 0 false
      = some ((List.replicate (D.toNat + 1) true).set 0 false) := by
    rw [pySet, if_pos]
    simp
  rw [h1, Option.some_bind, hsp, Option.some_bind]
  congr 1
  have hgoal : (primes.foldl (effStep D.toNat)
        ((List.replicate (D.toNat + 1) true).set 0 false)).countP id =
      ((List.range' 1 D.toNat).filter
        (fun q => decide (EffectiveModulus q))).length := by
    set L := primes.foldl (effStep D.toNat)
      ((List.replicate (D.toNat + 1) true).set 0 false) with hL
    have hlen : L.length = D.toNat + 1 := by
      rw [hL, foldl_effStep_length, List.length_set, List.length_replicate]
    have hchar : ∀ k, L.getD k false = true ↔
        (1 ≤ k ∧ k ≤ D.toNat) ∧
          ∀ p ∈ primes, (p - 1) % 47 ≠ 0 → ¬ (p ∣ k ∧ p ≤ k ∧ k ≤ D.toNat) := by
      intro k
      rw [hL, foldl_effStep_getD primes _ k hps, init_eff_getD]
    rw [countP_id_eq, hlen, List.range_eq_range', List.range'_succ,
      List.filter_cons]
    have h0 : L.getD 0 false = false := by
      rw [Bool.eq_false_iff]
      intro h
      have := (hchar 0).mp h
      omega
    rw [h0]
    simp only [Bool.false_eq_true, if_false]
    apply congrArg
    apply List.filter_congr
    intro k hk
    rw [List.mem_range'_1] at hk
    have hk1 : 1 ≤ k := hk.1
    have hkD : k ≤ D.toNat := by omega
    by_cases hE : EffectiveModulus k
    · rw [decide_eq_true hE, (hchar k).mpr
        ⟨⟨hk1, hkD⟩, (effective_iff_unmarked hk1 hkD hmem).mpr hE⟩]
    · rw [decide_eq_false hE, Bool.eq_false_iff]
      intro h
      exact hE ((effective_iff_unmarked hk1 hkD hmem).mp ((hchar k).mp h).2)
  exact_mod_cast hgoal

/-! ### Claim theorems (first batch) -/

/-- C1: for every integer `D ≥ 1`, `count_effective_moduli D` returns
exactly the number of integers `q ∈ [1, D]` whose entire prime
factorization consists of primes ≡ 1 (mod 47); moreover `1` is effective
(no prime factors) and the prime `47` itself is not. -/
theorem count_effective_moduli_correct (D : ℤ) (hD : 1 ≤ D) :
    count_effective_moduli D =
      some (((List.range' 1 D.toNat).filter
        (fun q => decide (EffectiveModulus q))).length : ℕ) ∧
    EffectiveModulus 1 ∧ ¬ EffectiveModulus 47 :=
  ⟨count_effective_moduli_eq hD, by decide, by decide⟩

/-- Witness for C1 at `D = 100`: the count is 1 (only `q = 1` survives
below 100, the first prime ≡ 1 mod 47 being 283). -/
theorem count_effective_moduli_correct_witness :
    (1 : ℤ) ≤ 100 ∧ count_effective_moduli 100 = some 1 :=
  ⟨by norm_num, ((count_effective_moduli_correct 100 (by norm_num)).1).trans
    (by decide)⟩

/-- C3: for every integer `N ≥ 2`, `sieve_primes N` succeeds and returns
the strictly increasing (hence duplicate-free) sequence of exactly the
primes `p` with `2 ≤ p ≤ N`. -/
theorem sieve_primes_spec (N : ℤ) (hN : 2 ≤ N) :
    ∃ l : List ℕ, sieve_primes N = some l ∧ l.Pairwise (· < ·) ∧
      ∀ p : ℕ, p ∈ l ↔ p.Prime ∧ (p : ℤ) ≤ N := by
  obtain ⟨l, h1, h2, h3⟩ := sieve_primes_core (show 1 ≤ N by omega)
  refine ⟨l, h1, h2, fun p => (h3 p).trans ?_⟩
  constructor
  · rintro ⟨hp, hple⟩
    exact ⟨hp, by omega⟩
  · rintro ⟨hp, hple⟩
    exact ⟨hp, by omega⟩

/-- Witness for C3 at `N = 100`: the 25 primes up to 100. -/
theorem sieve_primes_spec_witness :
    ((2 : ℤ) ≤ 100 ∧ ∃ l : List ℕ, sieve_primes 100 = some l ∧
      l.Pairwise (· < ·) ∧ ∀ p : ℕ, p ∈ l ↔ p.Prime ∧ (p : ℤ) ≤ 100) ∧
    sieve_primes 100 = some [2, 3, 5, 7, 11, 13, 17, 19, 23, 29, 31, 37,
      41, 43, 47, 53, 59, 61, 67, 71, 73, 79, 83, 89, 97] :=
  ⟨⟨by norm_num, sieve_primes_spec 100 (by norm_num)⟩, by decide⟩

/-- C4 counterexample: the claim fails at `D = 1`, because the right-hand
call `count_effective_moduli (1 - 1)` does not return (the Python code
raises `IndexError`), modelled as `none`. -/
theorem count_effective_moduli_monotone_fails_at_one :
    count_effective_moduli 1 = some 1 ∧
      count_effective_moduli (1 - 1) = none := by
  constructor <;> decide

/-- C4 (amended): for every integer `D ≥ 2` both calls return and the
count is monotonically non-decreasing; at `D = 1` the comparison is
impossible since `count_effective_moduli 0` fails. -/
theorem count_effective_moduli_monotone (D : ℤ) (hD : 2 ≤ D) :
    ∃ a b : ℤ, count_effective_moduli D = some a ∧
      count_effective_moduli (D - 1) = some b ∧ b ≤ a := by
  have h1 := count_effective_moduli_eq (show 1 ≤ D by omega)
  have h2 := count_effective_moduli_eq (show 1 ≤ D - 1 by omega)
  refine ⟨_, _, h1, h2, ?_⟩
  have htn : D.toNat = (D - 1).toNat + 1 := by omega
  rw [htn, List.range'_concat, List.filter_append, List.length_append]
  exact_mod_cast Nat.le_add_right _ _

/-- Witness for C4 (amended) at `D = 2`. -/
theorem count_effective_moduli_monotone_witness :
    (2 : ℤ) ≤ 2 ∧ ∃ a b : ℤ, count_effective_moduli 2 = some a ∧
      count_effective_moduli (2 - 1) = some b ∧ b ≤ a :=
  ⟨le_refl 2, count_effective_moduli_monotone 2 (le_refl 2)⟩

/-- C5: contrary to the specification ("D = 0 → count 0", "no failure
modes other than resource limits"), `count_effective_moduli 0` does not
return a count: the Python code raises `IndexError` inside
`sieve_primes(0)` (`is_prime[1] = False` on a length-1 list). -/
theorem count_effective_moduli_zero_fails :
    count_effective_moduli 0 = none := by decide

/-- C6: `sieve_primes` returns the empty sequence for `N = 1`, but for
`N = 0` (and for negative `N`) the Python code raises `IndexError`
instead of returning an empty sequence, modelled as `none`. -/
theorem sieve_primes_below_two :
    sieve_primes 1 = some [] ∧ sieve_primes 0 = none ∧
      sieve_primes (-1) = none :=
  ⟨by decide, by decide, by decide⟩

/-- C7: `verify_mod47` returns `True`, and indeed every residue
`r ∈ [0, 46]` satisfies `r^47 − ((r−1) mod 47)^47 ≡ 1 (mod 47)`. -/
theorem verify_mod47_spec :
    verify_mod47 = true ∧
      ∀ r : Fin 47, ((r : ℤ) ^ 47 - (((r : ℤ) - 1) % 47) ^ 47) % 47 = 1 :=
  ⟨by decide, by decide⟩

/-- C8: the exponent threshold crossings: `global_exponent` vanishes
exactly at `B = 45/46` and `restricted_exponent` at `B' = 45/23`. -/
theorem exponent_thresholds :
    global_exponent (45 / 46) = 0 ∧ restricted_exponent (45 / 23) = 0 :=
  ⟨by norm_num [global_exponent], by norm_num [restricted_exponent]⟩

/-! ### Counting the roots of Q(n) = n^47 − (n−1)^47 modulo p -/

/-- The brute-force predicate tested by `omega_brute` holds at `n` iff
the corresponding residue of `ZMod p` is a root of `Q`. -/
theorem brute_pred_iff {p : ℕ} [NeZero p] (n : ℕ) :
    ((((n : ℤ) ^ 47 % (p : ℤ)) - (((n : ℤ) - 1) % (p : ℤ)) ^ 47 % (p : ℤ))
        % (p : ℤ) = 0) ↔
      ((n : ZMod p) ^ 47 = ((n : ZMod p) - 1) ^ 47) := by
  have h2 : ((((n : ℤ) - 1) % (p : ℤ)) ^ 47) % (p : ℤ)
      = (((n : ℤ) - 1) ^ 47) % (p : ℤ) :=
    (Int.mod_modEq ((n : ℤ) - 1) (p : ℤ)).pow 47
  have h1 : ((n : ℤ) ^ 47 % (p : ℤ) - (((n : ℤ) - 1) % (p : ℤ)) ^ 47 % (p : ℤ))
        % (p : ℤ)
      = ((n : ℤ) ^ 47 - ((n : ℤ) - 1) ^ 47) % (p : ℤ) := by
    rw [h2, ← Int.sub_emod]
  rw [h1]
  calc ((n : ℤ) ^ 47 - ((n : ℤ) - 1) ^ 47) % (p : ℤ) = 0
      ↔ (p : ℤ) ∣ ((n : ℤ) ^ 47 - ((n : ℤ) - 1) ^ 47) :=
        Int.dvd_iff_emod_eq_zero.symm
    _ ↔ ((((n : ℤ) ^ 47 - ((n : ℤ) - 1) ^ 47 : ℤ)) : ZMod p) = 0 :=
        (ZMod.intCast_zmod_eq_zero_iff_dvd _ p).symm
    _ ↔ ((n : ZMod p) ^ 47 = ((n : ZMod p) - 1) ^ 47) := by
        push_cast
        rw [sub_eq_zero]

theorem length_filter_range_eq_card (p : ℕ) (f : ℕ → Bool) :
    ((List.range p).filter f).length
      = ((Finset.range p).filter (fun n => f n = true)).card := by
  induction p with
  | zero => rfl
  | succ p ih =>
    rw [List.range_succ, List.filter_append, List.length_append, ih,
      Finset.range_succ, Finset.filter_insert]
    by_cases h : f p = true
    · rw [if_pos h, Finset.card_insert_of_not_mem
        (fun hm => absurd (Finset.mem_range.mp (Finset.mem_filter.mp hm).1)
          (lt_irrefl p))]
      simp [h]
    · rw [if_neg h]
      simp [h]

theorem card_filter_range_cast (p : ℕ) [NeZero p] (P : ZMod p → Prop)
    [DecidablePred P] :
    ((Finset.range p).filter (fun n : ℕ => P (n : ZMod p))).card
      = (Finset.univ.filter P).card := by
  apply Finset.card_bij (fun (n : ℕ) _ => ((n : ZMod p)))
  · intro a ha
    rw [Finset.mem_filter] at ha ⊢
    exact ⟨Finset.mem_univ _, ha.2⟩
  · intro a ha b hb hab
    rw [Finset.mem_filter, Finset.mem_range] at ha hb
    have ha' := ZMod.val_cast_of_lt ha.1
    have hb' := ZMod.val_cast_of_lt hb.1
    rw [← ha', ← hb', hab]
  · intro x hx
    rw [Finset.mem_filter] at hx
    refine ⟨x.val, ?_, ZMod.natCast_rightInverse x⟩
    rw [Finset.mem_filter, Finset.mem_range]
    refine ⟨ZMod.val_lt x, ?_⟩
    rw [ZMod.natCast_rightInverse x]
    exact hx.2

/-- `omega_brute p` is the number of roots of `Q` in `ZMod p`. -/
theorem omega_brute_eq_card (p : ℕ) [NeZero p] :
    omega_brute (p : ℤ) =
      ((Finset.univ.filter
        (fun x : ZMod p => x ^ 47 = (x - 1) ^ 47)).card : ℤ) := by
  have hp : 0 < p := Nat.pos_of_ne_zero (NeZero.ne p)
  rw [omega_brute]
  have ht : ((p : ℤ)).toNat = p := by omega
  rw [ht]
  have hcongr : ∀ n ∈ List.range p,
      (decide ((((n : ℤ) ^ 47 % (p : ℤ)) -
          (((n : ℤ) - 1) % (p : ℤ)) ^ 47 % (p : ℤ)) % (p : ℤ) = 0))
        = decide ((n : ZMod p) ^ 47 = ((n : ZMod p) - 1) ^ 47) := by
    intro n _
    rw [decide_eq_decide]
    exact brute_pred_iff n
  rw [List.filter_congr hcongr, length_filter_range_eq_card]
  have hfc : (Finset.range p).filter
        (fun n : ℕ => decide ((n : ZMod p) ^ 47 = ((n : ZMod p) - 1) ^ 47) = true)
      = (Finset.range p).filter
        (fun n : ℕ => (n : ZMod p) ^ 47 = ((n : ZMod p) - 1) ^ 47) := by
    apply Finset.filter_congr
    intro n _
    simp
  rw [hfc]
  have hc := card_filter_range_cast p (fun x : ZMod p => x ^ 47 = (x - 1) ^ 47)
  exact_mod_cast hc

/-- In a finite cyclic group, an exact divisor `n` of the order yields
exactly `n` solutions of `u ^ n = 1`. -/
theorem card_pow_eq_one_of_dvd {G : Type} [CommGroup G] [Fintype G]
    [IsCyclic G] [DecidableEq G] {n : ℕ} (hn : 0 < n)
    (hd : n ∣ Fintype.card G) :
    (Finset.univ.filter (fun u : G => u ^ n = 1)).card = n := by
  refine le_antisymm (IsCyclic.card_pow_eq_one_le hn) ?_
  obtain ⟨g, hg⟩ := IsCyclic.exists_ofOrder_eq_natCard (α := G)
  rw [Nat.card_eq_fintype_card] at hg
  obtain ⟨k, hk⟩ := hd
  have hcard : 0 < Fintype.card G := Fintype.card_pos
  have hk0 : 0 < k := by
    rcases Nat.eq_zero_or_pos k with rfl | h
    · rw [Nat.mul_zero] at hk
      omega
    · exact h
  have horda : orderOf (g ^ k) = n := by
    rw [orderOf_pow, hg, hk, Nat.gcd_eq_right (dvd_mul_left k n),
      Nat.mul_div_cancel _ hk0]
  have hmaps : ∀ i ∈ Finset.range n,
      (g ^ k) ^ i ∈ Finset.univ.filter (fun u : G => u ^ n = 1) := by
    intro i _
    rw [Finset.mem_filter]
    refine ⟨Finset.mem_univ _, ?_⟩
    rw [← pow_mul, Nat.mul_comm, pow_mul, ← horda, pow_orderOf_eq_one,
      one_pow]
  have hinjOn : Set.InjOn ((g ^ k) ^ ·) ↑(Finset.range n) := by
    intro i hi j hj hij
    rw [Finset.coe_range, Set.mem_Iio] at hi hj
    exact pow_injOn_Iio_orderOf (by rwa [Set.mem_Iio, horda])
      (by rwa [Set.mem_Iio, horda]) hij
  calc n = (Finset.range n).card := (Finset.card_range n).symm
    _ ≤ (Finset.univ.filter (fun u : G => u ^ n = 1)).card :=
        Finset.card_le_card_of_injOn _ hmaps hinjOn

/-- In `ZMod p` for a prime `p` with `47 ∣ p − 1` there are exactly 47
solutions of `t ^ 47 = 1`. -/
theorem card_pow47_roots {p : ℕ} [Fact p.Prime] (hd : 47 ∣ p - 1) :
    (Finset.univ.filter (fun t : ZMod p => t ^ 47 = 1)).card = 47 := by
  have hu := card_pow_eq_one_of_dvd (G := (ZMod p)ˣ)
    (show 0 < 47 by norm_num) (by rw [ZMod.card_units]; exact hd)
  have hbij : (Finset.univ.filter (fun t : ZMod p => t ^ 47 = 1)).card
      = (Finset.univ.filter (fun u : (ZMod p)ˣ => u ^ 47 = 1)).card := by
    symm
    apply Finset.card_bij (fun (u : (ZMod p)ˣ) _ => (u : ZMod p))
    · intro u hu'
      rw [Finset.mem_filter] at hu' ⊢
      refine ⟨Finset.mem_univ _, ?_⟩
      rw [← Units.val_pow_eq_pow_val, hu'.2, Units.val_one]
    · intro u _ v _ huv
      exact Units.ext huv
    · intro t ht
      rw [Finset.mem_filter] at ht
      have ht0 : t ≠ 0 := by
        intro h0
        rw [h0, zero_pow (by norm_num : (47 : ℕ) ≠ 0)] at ht
        exact zero_ne_one ht.2
      refine ⟨Units.mk0 t ht0, ?_, rfl⟩
      rw [Finset.mem_filter]
      refine ⟨Finset.mem_univ _, ?_⟩
      ext
      rw [Units.val_pow_eq_pow_val, Units.val_one, Units.val_mk0]
      exact ht.2
  rw [hbij, hu]

/-- A root of `Q` in a field is neither 0 nor 1. -/
theorem root_ne_zero_one {F : Type} [Field F] {x : F}
    (h : x ^ 47 = (x - 1) ^ 47) : x ≠ 0 ∧ x - 1 ≠ 0 := by
  constructor
  · rintro rfl
    rw [zero_pow (by norm_num : (47 : ℕ) ≠ 0), zero_sub] at h
    have h47 : Odd 47 := ⟨23, by norm_num⟩
    rw [h47.neg_one_pow] at h
    have h10 : (1 : F) = 0 := by linear_combination h
    exact one_ne_zero h10
  · intro h10
    have hx1 : x = 1 := by linear_combination h10
    rw [hx1] at h
    rw [one_pow, sub_self, zero_pow (by norm_num : (47 : ℕ) ≠ 0)] at h
    exact one_ne_zero h

theorem phi_sub_one {F : Type} [Field F] {y : F} (hy : y - 1 ≠ 0) :
    y * (y - 1)⁻¹ - 1 = (y - 1)⁻¹ := by
  field_simp

theorem phi_pow47 {F : Type} [Field F] {x : F} (hx1 : x - 1 ≠ 0)
    (h : x ^ 47 = (x - 1) ^ 47) : (x * (x - 1)⁻¹) ^ 47 = 1 := by
  rw [mul_pow, inv_pow, h, mul_inv_cancel₀ (pow_ne_zero _ hx1)]

theorem phi_ne_one {F : Type} [Field F] {x : F} (hx1 : x - 1 ≠ 0) :
    x * (x - 1)⁻¹ ≠ 1 := by
  intro he
  have hxx : x = x - 1 := by
    have h2 := congrArg (· * (x - 1)) he
    simpa [mul_assoc, inv_mul_cancel₀ hx1] using h2
  have h10 : (1 : F) = 0 := by linear_combination hxx
  exact one_ne_zero h10

theorem phi_phi {F : Type} [Field F] {y : F} (hy : y - 1 ≠ 0) :
    (y * (y - 1)⁻¹) * ((y * (y - 1)⁻¹) - 1)⁻¹ = y := by
  rw [phi_sub_one hy, inv_inv, mul_assoc, inv_mul_cancel₀ hy, mul_one]

/-- Splitting case: for prime `p` with `47 ∣ p − 1`, `Q` has exactly 46
roots modulo `p`. -/
theorem card_roots_splitting {p : ℕ} [Fact p.Prime] (hd : 47 ∣ p - 1) :
    (Finset.univ.filter
      (fun x : ZMod p => x ^ 47 = (x - 1) ^ 47)).card = 46 := by
  have hT : (Finset.univ.filter
      (fun t : ZMod p => t ^ 47 = 1 ∧ t ≠ 1)).card = 46 := by
    have hsplit : Finset.univ.filter (fun t : ZMod p => t ^ 47 = 1 ∧ t ≠ 1)
        = (Finset.univ.filter (fun t : ZMod p => t ^ 47 = 1)).erase 1 := by
      rw [← Finset.filter_ne', Finset.filter_filter]
    have h1mem : (1 : ZMod p) ∈
        Finset.univ.filter (fun t : ZMod p => t ^ 47 = 1) := by
      rw [Finset.mem_filter]
      exact ⟨Finset.mem_univ _, one_pow 47⟩
    rw [hsplit, Finset.card_erase_of_mem h1mem, card_pow47_roots hd]
  rw [← hT]
  apply Finset.card_bij' (fun (x : ZMod p) _ => x * (x - 1)⁻¹)
    (fun (t : ZMod p) _ => t * (t - 1)⁻¹)
  · intro x hx
    rw [Finset.mem_filter] at hx ⊢
    obtain ⟨hx0, hx1⟩ := root_ne_zero_one hx.2
    exact ⟨Finset.mem_univ _, phi_pow47 hx1 hx.2, phi_ne_one hx1⟩
  · intro t ht
    rw [Finset.mem_filter] at ht ⊢
    obtain ⟨-, ht47, ht1⟩ := ht
    have ht1' : t - 1 ≠ 0 := sub_ne_zero.mpr ht1
    refine ⟨Finset.mem_univ _, ?_⟩
    rw [mul_pow, inv_pow, ht47, one_mul, phi_sub_one ht1', inv_pow]
  · intro x hx
    rw [Finset.mem_filter] at hx
    obtain ⟨hx0, hx1⟩ := root_ne_zero_one hx.2
    exact phi_phi hx1
  · intro t ht
    rw [Finset.mem_filter] at ht
    have ht1' : t - 1 ≠ 0 := sub_ne_zero.mpr ht.2.2
    exact phi_phi ht1'

/-- Ramified case: `Q` has no roots modulo 47 (indeed `Q(n) ≡ 1`). -/
theorem card_roots_47 :
    (Finset.univ.filter
      (fun x : ZMod 47 => x ^ 47 = (x - 1) ^ 47)).card = 0 := by
  haveI : Fact (Nat.Prime 47) := ⟨by norm_num⟩
  rw [Finset.card_eq_zero, Finset.filter_eq_empty_iff]
  intro x _
  intro h
  have h1 : x ^ 47 = x := ZMod.pow_card x
  have h2 : (x - 1) ^ 47 = x - 1 := ZMod.pow_card (x - 1)
  rw [h1, h2] at h
  have h10 : (1 : ZMod 47) = 0 := by linear_combination h
  exact one_ne_zero h10

/-- Inert case: for a prime `p ∉ {47}` with `47 ∤ p − 1`, `Q` has no
roots modulo `p`. -/
theorem card_roots_inert {p : ℕ} [hp : Fact p.Prime]
    (hd : ¬ 47 ∣ p - 1) :
    (Finset.univ.filter
      (fun x : ZMod p => x ^ 47 = (x - 1) ^ 47)).card = 0 := by
  rw [Finset.card_eq_zero, Finset.filter_eq_empty_iff]
  intro x _
  intro h
  obtain ⟨hx0, hx1⟩ := root_ne_zero_one h
  set u := x * (x - 1)⁻¹ with hu
  have hu47 : u ^ 47 = 1 := phi_pow47 hx1 h
  have hu1 : u ≠ 1 := phi_ne_one hx1
  have hu0 : u ≠ 0 := by
    intro h0
    rw [h0, zero_pow (by norm_num : (47 : ℕ) ≠ 0)] at hu47
    exact zero_ne_one hu47
  have hord : orderOf u ∣ 47 := orderOf_dvd_of_pow_eq_one hu47
  have h47p : Nat.Prime 47 := by norm_num
  rcases (Nat.Prime.eq_one_or_self_of_dvd h47p _ hord) with h1 | h1
  · exact hu1 (orderOf_eq_one_iff.mp h1)
  · have hv : orderOf (Units.mk0 u hu0) = 47 := by
      rw [← orderOf_units, Units.val_mk0, h1]
    have hdvd : orderOf (Units.mk0 u hu0) ∣ Fintype.card (ZMod p)ˣ :=
      orderOf_dvd_card
    rw [hv, ZMod.card_units] at hdvd
    exact hd hdvd

/-! ### Claim theorems (second batch) -/

/-- C2: for every prime `p ≤ 6299`, `omega_brute p = omega_theory p`;
concretely, the ramified / splitting / inert trichotomy holds with root
counts 0 / 46 / 0. -/
theorem omega_brute_eq_omega_theory (p : ℕ) (hp : p.Prime)
    (hle : p ≤ 6299) :
    omega_brute (p : ℤ) = omega_theory (p : ℤ) ∧
    (p = 47 → omega_brute (p : ℤ) = 0 ∧ classify (p : ℤ) = "ramified") ∧
    (p ≠ 47 → (p - 1) % 47 = 0 →
      omega_brute (p : ℤ) = 46 ∧ classify (p : ℤ) = "splitting") ∧
    (p ≠ 47 → (p - 1) % 47 ≠ 0 →
      omega_brute (p : ℤ) = 0 ∧ classify (p : ℤ) = "inert") := by
  haveI : Fact p.Prime := ⟨hp⟩
  haveI : NeZero p := ⟨hp.pos.ne'⟩
  have h2 := hp.two_le
  by_cases h47 : p = 47
  · subst h47
    have hbrute : omega_brute ((47 : ℕ) : ℤ) = 0 := by
      rw [omega_brute_eq_card 47, card_roots_47]
      norm_num
    have hth : omega_theory ((47 : ℕ) : ℤ) = 0 := by
      rw [omega_theory, if_pos (by norm_num)]
    have hcl : classify ((47 : ℕ) : ℤ) = "ramified" := by
      rw [classify, if_pos (by norm_num)]
    exact ⟨hbrute.trans hth.symm, fun _ => ⟨hbrute, hcl⟩,
      fun h _ => absurd rfl h, fun h _ => absurd rfl h⟩
  · have h47' : (p : ℤ) ≠ 47 := by omega
    by_cases hmod : (p - 1) % 47 = 0
    · have hdvd : 47 ∣ p - 1 := Nat.dvd_of_mod_eq_zero hmod
      have hmodZ : ((p : ℤ) - 1) % 47 = 0 := by omega
      have hbrute : omega_brute (p : ℤ) = 46 := by
        rw [omega_brute_eq_card p, card_roots_splitting hdvd]
        norm_num
      have hth : omega_theory (p : ℤ) = 46 := by
        rw [omega_theory, if_neg h47', if_pos hmodZ]
      have hcl : classify (p : ℤ) = "splitting" := by
        rw [classify, if_neg h47', if_pos hmodZ]
      exact ⟨hbrute.trans hth.symm, fun h => absurd h h47,
        fun _ _ => ⟨hbrute, hcl⟩, fun _ hm => absurd hmod hm⟩
    · have hdvd : ¬ 47 ∣ p - 1 := fun hd => hmod (Nat.mod_eq_zero_of_dvd hd)
      have hmodZ : ((p : ℤ) - 1) % 47 ≠ 0 := by omega
      have hbrute : omega_brute (p : ℤ) = 0 := by
        rw [omega_brute_eq_card p, card_roots_inert hdvd]
        norm_num
      have hth : omega_theory (p : ℤ) = 0 := by
        rw [omega_theory, if_neg h47', if_neg hmodZ]
      have hcl : classify (p : ℤ) = "inert" := by
        rw [classify, if_neg h47', if_neg hmodZ]
      exact ⟨hbrute.trans hth.symm, fun h => absurd h h47,
        fun _ hm => absurd hm hmod, fun _ _ => ⟨hbrute, hcl⟩⟩

/-- Witness for C2 at `p = 47` (ramified) and `p = 283` (splitting,
`283 = 6·47 + 1` being the first prime ≡ 1 mod 47). -/
theorem omega_brute_eq_omega_theory_witness :
    (Nat.Prime 47 ∧ 47 ≤ 6299 ∧
      omega_brute ((47 : ℕ) : ℤ) = omega_theory ((47 : ℕ) : ℤ) ∧
      omega_brute ((47 : ℕ) : ℤ) = 0 ∧ classify ((47 : ℕ) : ℤ) = "ramified") ∧
    (Nat.Prime 283 ∧
      omega_brute ((283 : ℕ) : ℤ) = 46 ∧
      classify ((283 : ℕ) : ℤ) = "splitting") := by
  have h47 := omega_brute_eq_omega_theory 47 (by norm_num) (by norm_num)
  have h283 := omega_brute_eq_omega_theory 283 (by norm_num) (by norm_num)
  have h283s := h283.2.2.1 (by norm_num) (by norm_num)
  exact ⟨⟨by norm_num, by norm_num, h47.1, (h47.2.1 rfl).1, (h47.2.1 rfl).2⟩,
    ⟨by norm_num, h283s.1, h283s.2⟩⟩

/-- C9: for every prime `p`, `omega_brute p` lies in `[0, p − 1]`; it is
strictly below `p` because the residue `n = 0` is never a root
(`0^47 − (p−1)^47 ≡ 1 (mod p)`). -/
theorem omega_brute_in_range (p : ℕ) (hp : p.Prime) :
    0 ≤ omega_brute (p : ℤ) ∧ omega_brute (p : ℤ) ≤ (p : ℤ) - 1 ∧
      ((0 : ℤ) ^ 47 - ((p : ℤ) - 1) ^ 47) % (p : ℤ) = 1 := by
  haveI : Fact p.Prime := ⟨hp⟩
  haveI : NeZero p := ⟨hp.pos.ne'⟩
  have h2 := hp.two_le
  have hmodeq : ((p : ℤ) - 1) ≡ (-1) [ZMOD (p : ℤ)] := by
    rw [Int.modEq_iff_dvd]
    exact ⟨-1, by ring⟩
  have hpow : ((p : ℤ) - 1) ^ 47 ≡ (-1) ^ 47 [ZMOD (p : ℤ)] := hmodeq.pow 47
  have h3 : ((0 : ℤ) ^ 47 - ((p : ℤ) - 1) ^ 47) % (p : ℤ)
      = ((0 : ℤ) ^ 47 - (-1 : ℤ) ^ 47) % (p : ℤ) :=
    Int.ModEq.sub (Int.ModEq.refl ((0 : ℤ) ^ 47)) hpow
  have hval : ((0 : ℤ) ^ 47 - (-1 : ℤ) ^ 47) = 1 := by norm_num
  rw [hval] at h3
  have h1p : (1 : ℤ) % (p : ℤ) = 1 :=
    Int.emod_eq_of_lt (by norm_num) (by omega)
  rw [h1p] at h3
  have hcard := omega_brute_eq_card p
  have hzero_notin : (0 : ZMod p) ∉ Finset.univ.filter
      (fun x : ZMod p => x ^ 47 = (x - 1) ^ 47) := by
    rw [Finset.mem_filter]
    rintro ⟨-, h⟩
    exact (root_ne_zero_one h).1 rfl
  have hle_card : (Finset.univ.filter
      (fun x : ZMod p => x ^ 47 = (x - 1) ^ 47)).card ≤ p := by
    have h4 := Finset.card_le_univ (Finset.univ.filter
      (fun x : ZMod p => x ^ 47 = (x - 1) ^ 47))
    rwa [ZMod.card] at h4
  have hne_card : (Finset.univ.filter
      (fun x : ZMod p => x ^ 47 = (x - 1) ^ 47)).card ≠ p := by
    intro he
    have huniv := Finset.eq_univ_of_card (Finset.univ.filter
      (fun x : ZMod p => x ^ 47 = (x - 1) ^ 47))
      (by rw [he, ZMod.card])
    rw [huniv] at hzero_notin
    exact hzero_notin (Finset.mem_univ (0 : ZMod p))
  refine ⟨?_, ?_, h3⟩
  · rw [hcard]
    exact Int.natCast_nonneg _
  · rw [hcard]
    omega

/-- Witness for C9 at `p = 5`. -/
theorem omega_brute_in_range_witness :
    Nat.Prime 5 ∧ (0 ≤ omega_brute ((5 : ℕ) : ℤ) ∧
      omega_brute ((5 : ℕ) : ℤ) ≤ ((5 : ℕ) : ℤ) - 1 ∧
      ((0 : ℤ) ^ 47 - (((5 : ℕ) : ℤ) - 1) ^ 47) % ((5 : ℕ) : ℤ) = 1) :=
  ⟨by norm_num, omega_brute_in_range 5 (by norm_num)⟩

/-- C10: `classify` and `omega_theory` are total over all integers with
no primality check: `classify` returns exactly one of the three labels,
`omega_theory` is 46 exactly on the "splitting" label, and the composite
input 95 = 5·19 (with 95 ≡ 1 mod 47) is classified "splitting". -/
theorem classify_omega_theory_total (p : ℤ) :
    (classify p = "ramified" ↔ p = 47) ∧
    (classify p = "splitting" ↔ p ≠ 47 ∧ (p - 1) % 47 = 0) ∧
    (classify p = "inert" ↔ p ≠ 47 ∧ (p - 1) % 47 ≠ 0) ∧
    omega_theory p = (if classify p = "splitting" then 46 else 0) ∧
    (classify 95 = "splitting" ∧ omega_theory 95 = 46) := by
  have hrs : ("ramified" : String) ≠ "splitting" := by decide
  have hri : ("ramified" : String) ≠ "inert" := by decide
  have hsi : ("splitting" : String) ≠ "inert" := by decide
  refine ⟨?_, ?_, ?_, ?_, by decide, by decide⟩ <;>
  · by_cases h47 : p = 47
    · simp [classify, omega_theory, h47, hrs, hri, hsi, hrs.symm,
        hri.symm, hsi.symm]
    · by_cases hmod : (p - 1) % 47 = 0 <;>
        simp [classify, omega_theory, h47, hmod, hrs, hri, hsi,
          hrs.symm, hri.symm, hsi.symm]

end Q47
